import Mathlib

/-!
Shallow embedding of the Aztec-code decoder (packages `aztec_decoder` and
`aztec_tool`) together with proofs settling the frozen claims about it.

Conventions of the embedding:
* a binary module matrix is a `List (List Nat)`; numpy integer indexing
  (negative indices wrap once, out-of-range raises `IndexError`) is modelled
  by `npGet` returning `Option Nat`;
* Python / numpy basic slices with step `1` and `-1` are modelled by
  `pySliceFwd` / `pySliceRev` (exact `slice.indices` semantics);
* Python `int` arithmetic is modelled on `Int` where values can go negative,
  on `Nat` where the source keeps them non-negative;
* `int("".join(str(b) for b in bits), 2)` on a list of 0/1 bits is
  `bitsToNat`; on an empty list the Python call raises `ValueError`, which
  `bitsToNatE` models;
* unbounded `while` loops are run on an explicit fuel with a dedicated
  out-of-fuel result; the fuel chosen is proved (or checked) sufficient
  wherever a claim depends on it.
-/

/-- Value of `int("".join(str(b) for b in bits), 2)` for a non-empty list of 0/1 bits
(MSB first), as used by `CodewordReader._bits_to_int` and `ModeReader`. -/
def bitsToNat (l : List Nat) : Nat := l.foldl (fun a b => 2 * a + b) 0

/-- Value of a bit list read LSB-first (spec-side helper). -/
def lsbVal : List Nat → Nat
  | [] => 0
  | b :: bs => b + 2 * lsbVal bs

/-- Value of a bit list read MSB-first, written independently of `bitsToNat`
(spec-side helper: digit `i` weighs `2 ^ (len - 1 - i)`). -/
def msbVal (l : List Nat) : Nat := lsbVal l.reverse

/-- Python slice `bits[i : i + len]` for a list and `i ≥ 0`. -/
def sliceBits (bits : List Nat) (i len : Nat) : List Nat := (bits.drop i).take len

/-! ### Bit-stuff removal (`CodewordReader._remove_stuff_bits`) -/

/-- The `while words_seen < data_words and i < len(bits)` loop of
`_remove_stuff_bits`: the second argument counts the words still to be
processed (`data_words - words_seen`).  Each pass reads `run = bits[i:i+cw]`
and emits `run[:-1]` when the first `cw - 1` bits of the run are all equal,
otherwise the whole run. -/
def stuffLoop (bits : List Nat) (cw : Nat) : Nat → Nat → List Nat
  | _, 0 => []
  | i, w + 1 =>
    if i < bits.length then
      let run := (bits.drop i).take cw
      (if run.dropLast.all (fun b => b == run.headD 0) then run.dropLast else run)
        ++ stuffLoop bits cw (i + cw) w
    else []

/-- Model of `CodewordReader._remove_stuff_bits(bits, cw_size, data_words)`:
run the loop, then return `cleaned[len(bits) % cw_size : data_words * cw_size]`
(a Python slice, hence clamped to the available length). -/
def removeStuffBits (bits : List Nat) (cw dataWords : Nat) : List Nat :=
  let cleaned := stuffLoop bits cw 0 dataWords
  let startPadding := bits.length % cw
  (cleaned.drop startPadding).take (dataWords * cw - startPadding)

/-- Number of stuffed chunks (first `cw - 1` bits all equal) seen by
`stuffLoop` (spec-side counter mirroring the branch of the loop). -/
def countStuffed (bits : List Nat) (cw : Nat) : Nat → Nat → Nat
  | _, 0 => 0
  | i, w + 1 =>
    if i < bits.length then
      (if ((bits.drop i).take cw).dropLast.all
            (fun b => b == ((bits.drop i).take cw).headD 0) then 1 else 0)
        + countStuffed bits cw (i + cw) w
    else 0

/-! ### numpy indexing and basic slices -/

/-- A module matrix: rows of 0/1 cells. -/
abbrev Mat := List (List Nat)

/-- One-step numpy index normalization on an axis of length `n`. -/
def wrapIdx (i : Int) (n : Nat) : Int := if i < 0 then i + n else i

/-- numpy integer indexing `matrix[r, c]`: a negative index wraps once
(`r + n`), anything still outside `[0, n)` raises `IndexError` (`none`). -/
def npGet (m : Mat) (r c : Int) : Option Nat :=
  let r2 := wrapIdx r m.length
  if 0 ≤ r2 ∧ r2 < m.length then
    (m[r2.toNat]?).bind (fun row =>
      let c2 := wrapIdx c row.length
      if 0 ≤ c2 ∧ c2 < row.length then row[c2.toNat]? else none)
  else none

/-- The list `[a, a+1, ..., b-1]` over `Int` (Python `range(a, b)`). -/
def intRange (a b : Int) : List Int :=
  (List.range (b - a).toNat).map (fun (j : Nat) => a + (j : Int))

/-- Indices selected by the Python basic slice `x[a:b:1]` on an axis of
length `n` (`slice.indices` semantics: negative endpoints wrap once, then
both are clamped to `[0, n]`). -/
def pySliceFwd (a b : Int) (n : Nat) : List Int :=
  let a2 : Int := if a < 0 then a + n else a
  let a3 : Int := if a2 < 0 then 0 else if a2 > n then n else a2
  let b2 : Int := if b < 0 then b + n else b
  let b3 : Int := if b2 < 0 then 0 else if b2 > n then n else b2
  intRange a3 b3

/-- Indices selected by the Python basic slice `x[a:b:-1]` on an axis of
length `n` (negative endpoints wrap once, then both are clamped to
`[-1, n-1]`; elements run from `a` down to `b + 1`). -/
def pySliceRev (a b : Int) (n : Nat) : List Int :=
  let a2 : Int := if a < 0 then a + n else a
  let a3 : Int := if a2 < 0 then -1 else if a2 ≥ n then (n : Int) - 1 else a2
  let b2 : Int := if b < 0 then b + n else b
  let b3 : Int := if b2 < 0 then -1 else if b2 ≥ n then (n : Int) - 1 else b2
  (List.range (a3 - b3).toNat).map (fun (j : Nat) => a3 - (j : Int))

/-! ### The data spiral (`CodewordReader._read_bits`)

The traversal path of `_read_bits` depends only on the matrix side length,
the layer count and the symbol type — never on the cell values — so the
embedding records, slice by slice, the coordinates of the cells whose values
are appended to the bitmap.  (Scalar row/column indices are recorded as-is;
for every geometry used in the theorems below they stay inside `[0, n)`, so
the real code raises no `IndexError` there.) -/

inductive ReadingDirection where
  | bottom | right | top | left
deriving DecidableEq

inductive AztecType where
  | compact | full
deriving DecidableEq

/-- Model of `CodewordReader.is_reference(r, c)`: the cell lies on the reference grid
of a matrix of side `n` (Python `%` on a positive modulus is `Int.emod`). -/
def is_reference (n : Nat) (r c : Int) : Bool :=
  let centre : Int := (n : Int) / 2
  (r - centre) % 16 == 0 || (c - centre) % 16 == 0

/-- Mutable state of the `_read_bits` traversal. -/
structure SpiralState where
  squareSize : Int
  dir : ReadingDirection
  startP : Int × Int
  endP : Int × Int
  borns : Int

/-- One side traversal (the inner `for i in range(apply_to_borns,
square_size - 2 + apply_to_borns)` loop): the coordinate lists of the slices
appended to the bitmap, in order.  A slice is emitted when its guard cell is
not on the reference grid or the symbol is COMPACT. -/
def sideCells (n : Nat) (t : AztecType) (s : SpiralState) : List (List (Int × Int)) :=
  (intRange s.borns (s.squareSize - 2 + s.borns)).filterMap (fun i =>
    match s.dir with
    | .bottom =>
      if !(is_reference n i s.startP.2) || t == .compact then
        some ((pySliceFwd s.startP.2 (s.endP.2 + 1) n).map (fun c => (i, c)))
      else none
    | .right =>
      if !(is_reference n s.startP.1 i) || t == .compact then
        some ((pySliceRev s.startP.1 (s.endP.1 - 1) n).map (fun r => (r, i)))
      else none
    | .top =>
      if !(is_reference n (s.startP.1 - i + s.borns) s.startP.2) || t == .compact then
        some ((pySliceRev s.startP.2 (s.endP.2 - 1) n).map
          (fun c => (s.startP.1 - i + s.borns, c)))
      else none
    | .left =>
      if !(is_reference n s.startP.1 (s.startP.2 - i + s.borns)) || t == .compact then
        some ((pySliceFwd s.startP.1 (s.endP.1 + 1) n).map
          (fun r => (r, s.startP.2 - i + s.borns)))
      else none)

/-- The geometry update executed after each side traversal, including the
reference-cross nudge in the LEFT → BOTTOM transition. -/
def nextState (n : Nat) (s : SpiralState) : SpiralState :=
  match s.dir with
  | .bottom =>
    let start1 := (s.startP.1 + s.squareSize - 1, s.startP.2)
    { s with dir := .right, startP := start1,
             endP := (start1.1 - 1, start1.2 + s.squareSize - 1 - 2) }
  | .right =>
    let start1 := (s.startP.1, s.startP.2 + s.squareSize - 1)
    { s with dir := .top, startP := start1,
             endP := (start1.1 - s.squareSize + 1 + 2, start1.2 - 1) }
  | .top =>
    let start1 := (s.startP.1 - s.squareSize + 1, s.startP.2)
    { s with dir := .left, startP := start1,
             endP := (start1.1 + 1, start1.2 - s.squareSize + 1 + 2) }
  | .left =>
    let sq1 := s.squareSize - 4
    let borns1 := s.borns + 2
    let start1 := (s.endP.1 + 1, s.endP.2)
    if is_reference n start1.1 start1.2 then
      let start2 := (start1.1 + 1, start1.2 + 1)
      let sq2 := sq1 - 2
      { dir := .bottom, squareSize := sq2, borns := borns1 + 1, startP := start2,
        endP := (start2.1 + sq2 - 1 - 2, start2.2 + 1) }
    else
      { dir := .bottom, squareSize := sq1, borns := borns1, startP := start1,
        endP := (start1.1 + sq1 - 1 - 2, start1.2 + 1) }

/-- The `for _ in range(1, layers*4 + 1)` loop of `_read_bits`. -/
def spiralSides (n : Nat) (t : AztecType) : Nat → SpiralState → List (List (Int × Int))
  | 0, _ => []
  | k + 1, s => sideCells n t s ++ spiralSides n t k (nextState n s)

/-- The coordinates of the cells whose values `_read_bits` appends, slice by
slice, for a matrix of side `n`, `layers` data layers and symbol type `t`. -/
def readBitsCells (n layers : Nat) (t : AztecType) : List (List (Int × Int)) :=
  spiralSides n t (layers * 4)
    { squareSize := n, dir := .bottom, startP := (0, 0),
      endP := ((n : Int) - 1 - 2, 1), borns := 0 }

/-- No emitted cell lies on the reference grid (spec-side predicate). -/
def noRefLeak (n layers : Nat) : Bool :=
  (readBitsCells n layers .full).flatten.all (fun p => !(is_reference n p.1 p.2))

/-! ### Bullseye detection (`aztec_tool.detection.BullseyeDetector`) -/

inductive RingRes where
  | okR | stopR | idxR
deriving DecidableEq

/-- One `y` (or `x`) step of a ring check: the two matrix accesses of the
corresponding `if`, in evaluation order; `stopR` models `raise StopIteration`
on a colour mismatch, `idxR` an `IndexError` (not caught by the
`except StopIteration` handler). -/
def cellPair (m : Mat) (color : Nat) (p q : Int × Int) : RingRes :=
  match npGet m p.1 p.2 with
  | none => .idxR
  | some v =>
    if v ≠ color then .stopR
    else
      match npGet m q.1 q.2 with
      | none => .idxR
      | some w => if w ≠ color then .stopR else .okR

/-- Left-to-right scan stopping at the first non-`okR` result. -/
def scanRing (f : Int → RingRes) : List Int → RingRes
  | [] => .okR
  | y :: ys =>
    match f y with
    | .okR => scanRing f ys
    | r => r

/-- Run the second scan only when the first one passed. -/
def ringSeq : RingRes → RingRes → RingRes
  | .okR, r2 => r2
  | r1, _ => r1

/-- The body of the `while True` loop of `_detect_bounds` at a given
`layer`: scan the two columns `cx ± layer` over rows
`cy - layer .. cy + layer`, then the two rows `cy ± layer` over the same
column range, against `color = (layer + 1) % 2`. -/
def ringCheck (m : Mat) (cy cx : Int) (layer : Nat) : RingRes :=
  let color : Nat := (layer + 1) % 2
  ringSeq
    (scanRing (fun y => cellPair m color (y, cx - layer) (y, cx + layer))
      (intRange (cy - layer) (cy + layer + 1)))
    (scanRing (fun x => cellPair m color (cy - layer, x) (cy + layer, x))
      (intRange (cy - layer) (cy + layer + 1)))

/-- Possible outcomes of `BullseyeDetector` on a matrix. -/
inductive DetOut where
  | ok (bounds : Int × Int × Int × Int) (layers : Int)
  | invalidParam
  | bullseyeErr
  | indexErr
  | fuelOut
deriving DecidableEq

/-- The ring-expansion `while True` loop on fuel: the result is the final
layer after the `layer -= 1` backoff of the `except StopIteration` handler,
or the error that escaped the loop. -/
def bullLoop (m : Mat) (cy cx : Int) : Nat → Nat → Except DetOut Nat
  | 0, _ => .error .fuelOut
  | fuel + 1, layer =>
    match ringCheck m cy cx layer with
    | .stopR => .ok (layer - 1)
    | .idxR => .error .indexErr
    | .okR => bullLoop m cy cx fuel (layer + 1)

/-- Model of `BullseyeDetector(matrix)` followed by `_detect_bounds()`: the
constructor validation (2-D square matrix of odd side), then the ring
expansion from `layer = 1`, then the `layer < 1` test and the bounds /
`layer - 2` outputs.  The fuel `n / 2 + 2` always suffices: at
`layer = cy + 1` the first access wraps to the opposite corner, whose colour
never matches (proved in `bullLoop_run` below for the cases the claims
need). -/
def bullseyeDetect (m : Mat) : DetOut :=
  let n := m.length
  if !(m.all fun row => row.length == n) then .invalidParam
  else if n % 2 == 0 then .invalidParam
  else
    let cy : Int := (n / 2 : Nat)
    match bullLoop m cy cy (n / 2 + 2) 1 with
    | .error e => e
    | .ok l =>
      if l < 1 then .bullseyeErr
      else .ok (cy - l, cy - l, cy + l, cy + l) ((l : Int) - 2)

/-- Plain (non-wrapping) matrix access, for the spec-side ring predicate. -/
def matGet (m : Mat) (r c : Int) : Option Nat :=
  if 0 ≤ r ∧ 0 ≤ c then (m[r.toNat]?).bind (fun row => row[c.toNat]?) else none

/-- The cell at `p` exists and carries colour `color`. -/
def cellIs (m : Mat) (color : Nat) (p : Int × Int) : Bool :=
  match matGet m p.1 p.2 with
  | some v => v == color
  | none => false

/-- All positions of the square of Chebyshev radius `j` around the centre
(the two columns, then the two rows, as the code enumerates them). -/
def ringPositions (cy cx : Int) (j : Nat) : List (Int × Int) :=
  (intRange (cy - j) (cy + j + 1)).map (fun y => (y, cx - j))
    ++ (intRange (cy - j) (cy + j + 1)).map (fun y => (y, cx + j))
    ++ (intRange (cy - j) (cy + j + 1)).map (fun x => (cy - (j : Int), x))
    ++ (intRange (cy - j) (cy + j + 1)).map (fun x => (cy + (j : Int), x))

/-- Spec-side ring validity: every cell of the square of Chebyshev radius
`j` around the centre lies inside the matrix and equals `(j + 1) % 2`. -/
def goodRing (m : Mat) (j : Nat) : Bool :=
  let cy : Int := (m.length / 2 : Nat)
  (ringPositions cy cy j).all (cellIs m ((j + 1) % 2))

/-! ### Mode message field extraction (`aztec_tool.mode.ModeReader._extract_fields`) -/

inductive ModeErr where
  | lengthErr | layersRange
deriving DecidableEq

/-- Model of `ModeReader._extract_fields` on the (corrected or raw) mode bit list:
COMPACT splits the bits as 2 / 6 / rest, FULL as 5 / 11 / rest, adds one to
the two numeric fields and validates `1 ≤ layers ≤ 32`. -/
def extractFields (bits : List Nat) (t : AztecType) :
    Except ModeErr (Nat × Nat × List Nat) :=
  match t with
  | .compact =>
    if bits.length < 28 then .error .lengthErr
    else
      let layers := bitsToNat (bits.take 2) + 1
      let dataWords := bitsToNat ((bits.drop 2).take 6) + 1
      if 1 ≤ layers ∧ layers ≤ 32 then .ok (layers, dataWords, bits.drop 8)
      else .error .layersRange
  | .full =>
    if bits.length < 40 then .error .lengthErr
    else
      let layers := bitsToNat (bits.take 5) + 1
      let dataWords := bitsToNat ((bits.drop 5).take 11) + 1
      if 1 ≤ layers ∧ layers ≤ 32 then .ok (layers, dataWords, bits.drop 16)
      else .error .layersRange

/-! ### Data code-word correction (`aztec_decoder.codewords.CodewordReader._correct`) -/

/-- Model of `CodewordReader.PRIM_POLY`. -/
def PRIM_POLY (k : Nat) : Nat :=
  match k with
  | 6 => 0x43
  | 8 => 0x12d
  | 10 => 0x409
  | 12 => 0x1069
  | _ => 0

/-- The parameters `_correct` hands to `reedsolo.RSCodec`. -/
structure RSParams where
  nsym : Int
  nsize : Nat
  fcr : Nat
  generator : Nat
  cExp : Nat
  prim : Nat
deriving DecidableEq

/-- The `cw_size` selection chain of `_correct` and `_decode`. -/
def cwSize (layers : Nat) : Nat :=
  if layers ≤ 2 then 6 else if layers ≤ 8 then 8 else if layers ≤ 22 then 10 else 12

/-- The `total_words` k-bit symbols `_correct` builds from the bitmap. -/
def symbolsOf (bits : List Nat) (k : Nat) : List Nat :=
  (List.range (bits.length / k)).map (fun i => bitsToNat (sliceBits bits (i * k) k))

/-- MSB-first re-expansion of symbols into bits
(`for shift in range(cw_size - 1, -1, -1): ... (sym >> shift) & 1`). -/
def msbExpand (syms : List Nat) (k : Nat) : List Nat :=
  syms.flatMap (fun sym => (List.range k).map (fun j => (sym >>> (k - 1 - j)) &&& 1))

/-- Model of `CodewordReader._correct`, parameterized by the external Reed-Solomon
decoder (the `decoded[1]` full-codeword output of
`reedsolo.RSCodec(...).decode`). -/
def correctWith (rs : RSParams → List Nat → List Nat) (layers dataWords : Nat)
    (bits : List Nat) : List Nat :=
  let cw := cwSize layers
  let nsize := (1 <<< cw) - 1
  let totalWords := bits.length / cw
  let eccWords : Int := (totalWords : Int) - (dataWords : Int)
  msbExpand (rs ⟨eccWords, nsize, 1, 2, cw, PRIM_POLY cw⟩ (symbolsOf bits cw)) cw

/-- Code-word size as the claim states it (spec-side copy for comparison). -/
def claimCw (layers : Nat) : Nat :=
  if layers ≤ 2 then 6 else if layers ≤ 8 then 8 else if layers ≤ 22 then 10 else 12

/-- Primitive polynomial per code-word size as the claim states it. -/
def claimPrim (k : Nat) : Nat :=
  if k = 6 then 0x43 else if k = 8 then 0x12d
  else if k = 10 then 0x409 else if k = 12 then 0x1069 else 0

/-! ### Orientation (`aztec_decoder.orientation.OrientationManager`) -/

/-- Model of `OrientationManager._read_patterns`: the twelve corner reads in source
order (`none` models an uncaught `IndexError`). -/
def readPatterns (m : Mat) (b : Int × Int × Int × Int) : Option (List (List Nat)) := do
  let (tly, tlx, bry, brx) := b
  let a1 ← npGet m tly (tlx - 1)
  let a2 ← npGet m (tly - 1) (tlx - 1)
  let a3 ← npGet m (tly - 1) tlx
  let b1 ← npGet m (tly - 1) brx
  let b2 ← npGet m (tly - 1) (brx + 1)
  let b3 ← npGet m tly (brx + 1)
  let c1 ← npGet m bry (brx + 1)
  let c2 ← npGet m (bry + 1) (brx + 1)
  let c3 ← npGet m (bry + 1) brx
  let d1 ← npGet m (bry + 1) tlx
  let d2 ← npGet m (bry + 1) (tlx - 1)
  let d3 ← npGet m bry (tlx - 1)
  pure [[a1, a2, a3], [b1, b2, b3], [c1, c2, c3], [d1, d2, d3]]

/-- Model of `np.rot90(matrix, k=3)` on a square matrix: one clockwise quarter turn,
`result[i][j] = m[n-1-j][i]`. -/
def rot90k3 (m : Mat) : Mat :=
  let n := m.length
  (List.range n).map (fun i => (List.range n).map (fun j => (m.getD (n - 1 - j) []).getD i 0))

/-- Model of `OrientationManager._need_rotation`: `True` unless the four corner
triplets equal the canonical tuple. -/
def needRotation (m : Mat) (b : Int × Int × Int × Int) : Option Bool :=
  (readPatterns m b).map
    (fun p => !(p == [[1, 1, 1], [0, 1, 1], [1, 0, 0], [0, 0, 0]]))

/-- The `for _ in range(4)` loop of `rotate_if_needed`. -/
def rotateLoop (b : Int × Int × Int × Int) : Nat → Mat → Option Mat
  | 0, m => some m
  | k + 1, m =>
    match needRotation m b with
    | none => none
    | some true => rotateLoop b k (rot90k3 m)
    | some false => some m

/-- Model of `OrientationManager.rotate_if_needed`. -/
def rotateIfNeeded (m : Mat) (b : Int × Int × Int × Int) : Option Mat :=
  rotateLoop b 4 m

/-! ### Character tables (`aztec_tool.tables.TableManager`) and the text
state machine (`aztec_decoder.codewords.CodewordReader._decode`) -/

inductive AztecTableType where
  | upper | lower | mixed | punct | digit
deriving DecidableEq, BEq

/-- One row of `TableManager.mapping` (`digit` is `None` past index 15). -/
structure TableEntry where
  upper : String
  lower : String
  mixed : String
  punct : String
  digit : Option String
deriving DecidableEq

/-- Model of `TableManager.mapping` (dict lookup: `none` for indices outside 0-31). -/
def tableRow (i : Nat) : Option TableEntry :=
  match i with
  | 0 => some ⟨"P/S", "P/S", "P/S", "FLG(n)", some "P/S"⟩
  | 1 => some ⟨" ", " ", " ", "\n", some " "⟩
  | 2 => some ⟨"A", "a", "\x01", "\n\r", some "0"⟩
  | 3 => some ⟨"B", "b", "\x02", ". ", some "1"⟩
  | 4 => some ⟨"C", "c", "\x03", ", ", some "2"⟩
  | 5 => some ⟨"D", "d", "\x04", ": ", some "3"⟩
  | 6 => some ⟨"E", "e", "\x05", "!", some "4"⟩
  | 7 => some ⟨"F", "f", "\x06", "\"", some "5"⟩
  | 8 => some ⟨"G", "g", "\x07", "#", some "6"⟩
  | 9 => some ⟨"H", "h", "\x08", "$", some "7"⟩
  | 10 => some ⟨"I", "i", "\x09", "%", some "8"⟩
  | 11 => some ⟨"J", "j", "\x0A", "&", some "9"⟩
  | 12 => some ⟨"K", "k", "\x0B", "\x27", some ","⟩
  | 13 => some ⟨"L", "l", "\x0C", "(", some "."⟩
  | 14 => some ⟨"M", "m", "\x0D", ")", some "U/L"⟩
  | 15 => some ⟨"N", "n", "\x1B", "*", some "U/S"⟩
  | 16 => some ⟨"O", "o", "\x1C", "+", none⟩
  | 17 => some ⟨"P", "p", "\x1D", ",", none⟩
  | 18 => some ⟨"Q", "q", "\x1E", "-", none⟩
  | 19 => some ⟨"R", "r", "\x1F", ".", none⟩
  | 20 => some ⟨"S", "s", "@", "/", none⟩
  | 21 => some ⟨"T", "t", "\\", ":", none⟩
  | 22 => some ⟨"U", "u", "^", ";", none⟩
  | 23 => some ⟨"V", "v", "_", "<", none⟩
  | 24 => some ⟨"W", "w", "`", "=", none⟩
  | 25 => some ⟨"X", "x", "|", ">", none⟩
  | 26 => some ⟨"Y", "y", "~", "?", none⟩
  | 27 => some ⟨"Z", "z", "\x7F", "[", none⟩
  | 28 => some ⟨"L/L", "U/S", "L/L", "]", none⟩
  | 29 => some ⟨"M/L", "M/L", "U/L", "\x7b", none⟩
  | 30 => some ⟨"D/L", "D/L", "P/L", "\x7d", none⟩
  | 31 => some ⟨"B/S", "B/S", "B/S", "U/L", none⟩
  | _ => none

/-- Errors that can escape `_decode` (Python exception kinds:
`valueErr` = `ValueError` out of `int("", 2)`, `symbolErr` =
`SymbolDecodeError` from `TableManager.get_char`, `invalidParam` =
`InvalidParameterError` from `letter_to_mode`, `flgReserved` =
`ValueError("FLG(7) reserved/illegal")`, `fuelOut` = fuel artifact). -/
inductive DecErr where
  | valueErr | symbolErr | invalidParam | flgReserved | fuelOut
deriving DecidableEq

/-- Model of `CodewordReader._bits_to_int`: `int("", 2)` raises `ValueError`. -/
def bitsToNatE (l : List Nat) : Except DecErr Nat :=
  if l.isEmpty then .error .valueErr else .ok (bitsToNat l)

/-- Model of `TableManager.get_char(index, mode)`. -/
def getChar (index : Nat) (mode : AztecTableType) : Except DecErr String :=
  match tableRow index with
  | none => .error .symbolErr
  | some e =>
    match mode with
    | .upper => .ok e.upper
    | .lower => .ok e.lower
    | .mixed => .ok e.mixed
    | .punct => .ok e.punct
    | .digit =>
      match e.digit with
      | none => .error .symbolErr
      | some s => .ok s

/-- Python `str.endswith`, on the character list. -/
def pyEndsWith (s t : String) : Bool := t.data.isSuffixOf s.data

/-- Python `str.startswith`, on the character list. -/
def pyStartsWith (s t : String) : Bool := t.data.isPrefixOf s.data

/-- Model of `TableManager.letter_to_mode(char[0])`. -/
def letterToMode (c : Char) : Except DecErr AztecTableType :=
  match c.toUpper with
  | 'U' => .ok .upper
  | 'L' => .ok .lower
  | 'M' => .ok .mixed
  | 'P' => .ok .punct
  | 'D' => .ok .digit
  | _ => .error .invalidParam

/-- Helper for 8-bit chunking of a bit list (`range(0, len(bits), 8)`), on structural
fuel so that it evaluates by reduction; `l.length` chunks always suffice. -/
def chunk8Aux : Nat → List Nat → List (List Nat)
  | 0, _ => []
  | fuel + 1, l =>
    if l.isEmpty then [] else l.take 8 :: chunk8Aux fuel (l.drop 8)

/-- The 8-bit chunks of a bit list (`range(0, len(bits), 8)`). -/
def chunk8 (l : List Nat) : List (List Nat) := chunk8Aux l.length l

/-- Model of `CodewordReader._bits_to_bytes(...).decode("latin-1")`: each 8-bit chunk
becomes the character with that code point. -/
def latin1Of (l : List Nat) : String :=
  String.mk ((chunk8 l).map (fun c => Char.ofNat (bitsToNat c)))

/-- Python `str.zfill` for sign-less strings: left-pad with zeros. -/
def zfill (s : String) (w : Nat) : String :=
  String.mk (List.replicate (w - s.length) '0' ++ s.data)

/-- Mutable state of the `_decode` loop. -/
structure DecState where
  i : Nat
  chars : List String
  currentMode : AztecTableType
  previousMode : AztecTableType
  singleShift : Bool
  singleConsumed : Nat
deriving DecidableEq

/-- Step 1 of each iteration: revert a consumed single shift. -/
def shiftRevert (st : DecState) : DecState :=
  if st.singleShift && st.singleConsumed == 1 then
    { st with currentMode := st.previousMode, singleShift := false, singleConsumed := 0 }
  else st

/-- The FLG digit loop (`for _ in range(n)`): returns the accumulated digit
string and the new bit index. -/
def flgDigits (bits : List Nat) : Nat → Nat → Except DecErr (String × Nat)
  | 0, i => .ok ("", i)
  | n + 1, i =>
    match bitsToNatE (sliceBits bits i 4) with
    | .error e => .error e
    | .ok d =>
      match getChar d .digit with
      | .error e => .error e
      | .ok s =>
        match flgDigits bits n (i + 4) with
        | .error e => .error e
        | .ok (rest, i2) => .ok (s ++ rest, i2)

/-- The `while (i // codeword_size) < self.data_words` loop of
`CodewordReader._decode`, on fuel (every iteration advances `i` by at least
four bits, so `dw * cw + 1` fuel always suffices). -/
def decodeLoop (bits : List Nat) (cw dw : Nat) : Nat → DecState → Except DecErr String
  | 0, _ => .error .fuelOut
  | fuel + 1, st =>
    if st.i / cw < dw then
      let st1 := shiftRevert st
      let symLen := if st1.currentMode == AztecTableType.digit then 4 else 5
      let symBits := sliceBits bits st1.i symLen
      let st2 := { st1 with i := st1.i + symLen }
      match bitsToNatE symBits with
      | .error e => .error e
      | .ok val =>
        match getChar val st2.currentMode with
        | .error e => .error e
        | .ok ch =>
          if ch == "B/S" then
            if (sliceBits bits st2.i 5).isEmpty then .ok (String.join st2.chars)
            else
              let len1 := bitsToNat (sliceBits bits st2.i 5)
              let st3 := { st2 with i := st2.i + 5 }
              match (if len1 == 0 then
                  match bitsToNatE (sliceBits bits st3.i 11) with
                  | .error e => .error e
                  | .ok v => .ok (v + 31, st3.i + 11)
                else (.ok (len1, st3.i) : Except DecErr (Nat × Nat))) with
              | .error e => .error e
              | .ok (len2, i2) =>
                let st4 := { st3 with i := i2 + 8 * len2, chars := st3.chars ++ [latin1Of (sliceBits bits i2 (8 * len2))] }
                decodeLoop bits cw dw fuel st4
          else if pyEndsWith ch "/S" then
            match letterToMode ch.front with
            | .error e => .error e
            | .ok md =>
                let st3 := { st2 with previousMode := st2.currentMode, currentMode := md, singleShift := true, singleConsumed := 0 }
                decodeLoop bits cw dw fuel st3
          else if pyEndsWith ch "/L" then
            match letterToMode ch.front with
            | .error e => .error e
            | .ok md =>
                let st3 := { st2 with currentMode := md, previousMode := md }
                decodeLoop bits cw dw fuel st3
          else if pyStartsWith ch "FLG" then
            match bitsToNatE (sliceBits bits st2.i 3) with
            | .error e => .error e
            | .ok n =>
              let st3 := { st2 with i := st2.i + 3 }
              if n == 0 then
                decodeLoop bits cw dw fuel { st3 with chars := st3.chars ++ ["\x1D"] }
              else if n ≤ 6 then
                match flgDigits bits n st3.i with
                | .error e => .error e
                | .ok (digits, i2) =>
                  let st4 := { st3 with i := i2, chars := st3.chars ++ ["[ECI:" ++ zfill digits 6 ++ "]"] }
                  decodeLoop bits cw dw fuel st4
              else .error .flgReserved
          else if ch == "U/S" || ch == "L/S" || ch == "M/S" || ch == "P/S" || ch == "D/S" then
            decodeLoop bits cw dw fuel st2
          else
            let st3 := { st2 with chars := st2.chars ++ [ch] }
            let st4 := if st3.singleShift
              then { st3 with singleConsumed := st3.singleConsumed + 1 } else st3
            decodeLoop bits cw dw fuel st4
    else .ok (String.join st.chars)

/-- State after an iteration that only advanced the bit index and appended
one string (statement helper). -/
def withIC (st : DecState) (i : Nat) (s : String) : DecState :=
  { st with i := i, chars := st.chars ++ [s] }

/-- The concatenation of the DIGIT-table characters for a list of digit
values (spec-side: value `d` in `2..11` is digit `d - 2`). -/
def digitsStr : List Nat → String
  | [] => ""
  | d :: ds => String.singleton (Char.ofNat (48 + (d - 2))) ++ digitsStr ds
theorem bitsToNat_append_one (l : List Nat) (b : Nat) :
    bitsToNat (l ++ [b]) = 2 * bitsToNat l + b := by
  simp [bitsToNat, List.foldl_append]

theorem lsbVal_append_one (l : List Nat) (b : Nat) :
    lsbVal (b :: l) = b + 2 * lsbVal l := rfl

/-- Fact: `bitsToNat` really is the MSB-first value of the list. -/
theorem bitsToNat_eq_msbVal (l : List Nat) : bitsToNat l = msbVal l := by
  induction l using List.reverseRecOn with
  | nil => rfl
  | append_singleton l b ih =>
      rw [bitsToNat_append_one, ih]
      simp [msbVal, List.reverse_append, lsbVal]
      ring

/-- MSB-first value of `n` bits, each `≤ 1`, is `< 2 ^ n`. -/
theorem bitsToNat_lt (l : List Nat) (h : ∀ b ∈ l, b ≤ 1) :
    bitsToNat l < 2 ^ l.length := by
  induction l using List.reverseRecOn with
  | nil => simp [bitsToNat]
  | append_singleton l b ih =>
      have hb : b ≤ 1 := h b (by simp)
      have hl : bitsToNat l < 2 ^ l.length := ih (fun x hx => h x (by simp [hx]))
      rw [bitsToNat_append_one]
      simp only [List.length_append, List.length_singleton]
      have : 2 ^ (l.length + 1) = 2 * 2 ^ l.length := by ring
      omega

theorem countStuffed_le (bits : List Nat) (cw : Nat) :
    ∀ w i, countStuffed bits cw i w ≤ w := by
  intro w
  induction w with
  | zero => intro i; simp [countStuffed]
  | succ w ih =>
      intro i
      rw [countStuffed]
      split
      · have := ih (i + cw)
        split <;> omega
      · omega

theorem stuffLoop_length (bits : List Nat) (cw : Nat) (hcw : 1 ≤ cw) :
    ∀ w i, i + w * cw ≤ bits.length →
      (stuffLoop bits cw i w).length = w * cw - countStuffed bits cw i w := by
  intro w
  induction w with
  | zero => intro i _; simp [stuffLoop, countStuffed]
  | succ w ih =>
      intro i hle
      have hi : i < bits.length := by
        have : 1 * cw ≤ (w + 1) * cw := Nat.mul_le_mul_right cw (by omega)
        omega
      have hrun : ((bits.drop i).take cw).length = cw := by
        rw [List.length_take, List.length_drop]
        have : i + cw ≤ bits.length := by
          have : 1 * cw ≤ (w + 1) * cw := Nat.mul_le_mul_right cw (by omega)
          omega
        omega
      have hrec : (stuffLoop bits cw (i + cw) w).length
          = w * cw - countStuffed bits cw (i + cw) w := by
        apply ih
        have : (w + 1) * cw = cw + w * cw := by ring
        omega
      have hcnt : countStuffed bits cw (i + cw) w ≤ w := countStuffed_le bits cw w (i + cw)
      rw [stuffLoop, countStuffed]
      simp only [hi, if_true]
      split
      · rw [List.length_append, List.length_dropLast, hrun, hrec]
        have hwc : countStuffed bits cw (i + cw) w ≤ w * cw := by
          calc countStuffed bits cw (i + cw) w ≤ w := hcnt
            _ ≤ w * cw := Nat.le_mul_of_pos_right w (by omega)
        have : (w + 1) * cw = w * cw + cw := by ring
        omega
      · rw [List.length_append, hrun, hrec]
        have hwc : countStuffed bits cw (i + cw) w ≤ w * cw := by
          calc countStuffed bits cw (i + cw) w ≤ w := hcnt
            _ ≤ w * cw := Nat.le_mul_of_pos_right w (by omega)
        have : (w + 1) * cw = w * cw + cw := by ring
        omega

/-- Claim C1, counterexample: on a 12-bit input with `k = 6` and
`data_words = 2` whose first chunk is stuffed (first five bits equal), the
remover returns 11 bits, not `data_words * k = 12`. -/
theorem remove_stuff_bits_not_full_length :
    (removeStuffBits [0, 0, 0, 0, 0, 0, 0, 1, 0, 1, 0, 1] 6 2).length = 11 ∧
      11 ≠ 2 * 6 := by decide

/-- Claim C1 (amended): for `k ≥ 1`, an input whose length is a multiple of
`k` and at least `data_words * k`, the bit-stuff remover returns exactly
`data_words * k - s` bits, where `s` counts the stuffed chunks (first `k - 1`
bits all equal) among the first `data_words` chunks; the length is
`data_words * k` exactly when no chunk is stuffed. -/
theorem remove_stuff_bits_length (bits : List Nat) (cw dw : Nat) (hcw : 1 ≤ cw)
    (hmod : bits.length % cw = 0) (hlen : dw * cw ≤ bits.length) :
    (removeStuffBits bits cw dw).length = dw * cw - countStuffed bits cw 0 dw := by
  unfold removeStuffBits
  rw [hmod]
  simp only [List.drop_zero, Nat.sub_zero, List.length_take]
  rw [stuffLoop_length bits cw hcw dw 0 (by omega)]
  have := countStuffed_le bits cw dw 0
  omega

/-- Claim C1, witness for the amended theorem at a concrete unstuffed input. -/
theorem remove_stuff_bits_length_witness :
    (removeStuffBits [0, 1, 0, 1, 0, 1, 1, 0, 1, 0, 1, 0] 6 2).length
      = 2 * 6 - countStuffed [0, 1, 0, 1, 0, 1, 1, 0, 1, 0, 1, 0] 6 0 2 :=
  remove_stuff_bits_length [0, 1, 0, 1, 0, 1, 1, 0, 1, 0, 1, 0] 6 2
    (by decide) (by decide) (by decide)

/-! ### Lemmas about ranges, indexing and ring checks -/

theorem intRange_cons {a b : Int} (h : a < b) :
    intRange a b = a :: intRange (a + 1) b := by
  unfold intRange
  have h1 : (b - a).toNat = (b - (a + 1)).toNat + 1 := by omega
  rw [h1, List.range_succ_eq_map, List.map_cons, List.map_map]
  refine congrArg₂ _ (by norm_num) ?_
  apply List.map_congr_left
  intro j _
  simp only [Function.comp_apply]
  push_cast
  ring

theorem mem_intRange {x a b : Int} : x ∈ intRange a b ↔ a ≤ x ∧ x < b := by
  unfold intRange
  simp only [List.mem_map, List.mem_range]
  constructor
  · rintro ⟨j, hj, rfl⟩
    omega
  · rintro ⟨h1, h2⟩
    refine ⟨(x - a).toNat, ?_, ?_⟩
    · omega
    · omega

theorem scanRing_eq_ok {f : Int → RingRes} :
    ∀ l, scanRing f l = .okR ↔ ∀ y ∈ l, f y = .okR := by
  intro l
  induction l with
  | nil => simp [scanRing]
  | cons y ys ih =>
      rw [scanRing]
      cases h : f y with
      | okR => simp [h, ih]
      | stopR => simp [h]
      | idxR => simp [h]

theorem scanRing_ne_idx {f : Int → RingRes} :
    ∀ l, (∀ y ∈ l, f y ≠ .idxR) → scanRing f l ≠ .idxR := by
  intro l
  induction l with
  | nil => intro _; simp [scanRing]
  | cons y ys ih =>
      intro h
      rw [scanRing]
      cases hy : f y with
      | okR => exact ih (fun z hz => h z (by simp [hz]))
      | stopR => simp
      | idxR => exact absurd hy (h y (by simp))

theorem cellPair_eq_ok {m : Mat} {color : Nat} {p q : Int × Int} :
    cellPair m color p q = .okR ↔
      npGet m p.1 p.2 = some color ∧ npGet m q.1 q.2 = some color := by
  unfold cellPair
  cases h1 : npGet m p.1 p.2 with
  | none => simp
  | some v =>
      cases h2 : npGet m q.1 q.2 with
      | none =>
          by_cases hv : v = color <;> simp [hv]
      | some w =>
          by_cases hv : v = color <;> by_cases hw : w = color <;> simp [hv, hw]

theorem cellPair_ne_idx {m : Mat} {color : Nat} {p q : Int × Int}
    (h1 : (npGet m p.1 p.2).isSome) (h2 : (npGet m q.1 q.2).isSome) :
    cellPair m color p q ≠ .idxR := by
  unfold cellPair
  cases hg1 : npGet m p.1 p.2 with
  | none => rw [hg1] at h1; simp at h1
  | some v =>
      cases hg2 : npGet m q.1 q.2 with
      | none => rw [hg2] at h2; simp at h2
      | some w =>
          by_cases hv : v = color <;> by_cases hw : w = color <;> simp [hv, hw]

theorem cellIs_iff {m : Mat} {color : Nat} {p : Int × Int} :
    cellIs m color p = true ↔ matGet m p.1 p.2 = some color := by
  unfold cellIs
  cases h : matGet m p.1 p.2 with
  | none => simp
  | some v => simp [h]

theorem matGet_inbounds {m : Mat} {n : Nat} {r c : Int}
    (hlen : m.length = n) (hsq : ∀ row ∈ m, row.length = n)
    (hr0 : 0 ≤ r) (hrn : r < n) (hc0 : 0 ≤ c) (hcn : c < n) :
    ∃ v, matGet m r c = some v := by
  unfold matGet
  rw [if_pos ⟨hr0, hc0⟩]
  have hrlt : r.toNat < m.length := by omega
  have hrow : m[r.toNat] ∈ m := List.getElem_mem hrlt
  have hrl : m[r.toNat].length = n := hsq _ hrow
  have hclt : c.toNat < m[r.toNat].length := by omega
  rw [List.getElem?_eq_getElem hrlt, Option.some_bind, List.getElem?_eq_getElem hclt]
  exact ⟨_, rfl⟩

theorem wrapIdx_nonneg {i : Int} {n : Nat} (h : 0 ≤ i) : wrapIdx i n = i := by
  unfold wrapIdx
  rw [if_neg (by omega)]

theorem wrapIdx_neg {i : Int} {n : Nat} (h : i < 0) : wrapIdx i n = i + n := by
  unfold wrapIdx
  rw [if_pos h]

theorem npGet_nonneg {m : Mat} {n : Nat} {r c : Int}
    (hlen : m.length = n) (hsq : ∀ row ∈ m, row.length = n)
    (hr0 : 0 ≤ r) (hrn : r < n) (hc0 : 0 ≤ c) (hcn : c < n) :
    npGet m r c = matGet m r c := by
  unfold npGet matGet
  simp only [wrapIdx_nonneg hr0]
  rw [if_pos (by constructor <;> omega), if_pos ⟨hr0, hc0⟩]
  have hrlt : r.toNat < m.length := by omega
  have hrow : m[r.toNat] ∈ m := List.getElem_mem hrlt
  have hrl : m[r.toNat].length = n := hsq _ hrow
  rw [List.getElem?_eq_getElem hrlt, Option.some_bind, Option.some_bind]
  simp only [wrapIdx_nonneg hc0]
  rw [if_pos (by constructor <;> omega)]

theorem npGet_negneg {m : Mat} {n : Nat} {r c : Int}
    (hlen : m.length = n) (hsq : ∀ row ∈ m, row.length = n)
    (hrn : -(n : Int) ≤ r) (hr0 : r < 0) (hcn : -(n : Int) ≤ c) (hc0 : c < 0) :
    npGet m r c = matGet m (r + n) (c + n) := by
  unfold npGet matGet
  simp only [wrapIdx_neg hr0, hlen]
  rw [if_pos (by constructor <;> omega), if_pos (by constructor <;> omega)]
  have hrlt : (r + (n : Int)).toNat < m.length := by omega
  have hrow : m[(r + (n : Int)).toNat] ∈ m := List.getElem_mem hrlt
  have hrl : m[(r + (n : Int)).toNat].length = n := hsq _ hrow
  rw [List.getElem?_eq_getElem hrlt, Option.some_bind, Option.some_bind]
  simp only [wrapIdx_neg hc0, hrl]
  rw [if_pos (by constructor <;> omega)]

theorem ringSeq_eq_ok {r1 r2 : RingRes} :
    ringSeq r1 r2 = .okR ↔ r1 = .okR ∧ r2 = .okR := by
  cases r1 <;> simp [ringSeq]

theorem ringSeq_ne_idx {r1 r2 : RingRes} (h1 : r1 ≠ .idxR) (h2 : r2 ≠ .idxR) :
    ringSeq r1 r2 ≠ .idxR := by
  cases r1 <;> simp_all [ringSeq]

theorem matGet_neg_row {m : Mat} {r c : Int} (h : r < 0) : matGet m r c = none := by
  unfold matGet
  rw [if_neg (by omega)]

/-- The ring at radius `cy + 1` sticks out of the matrix, so the spec-side
ring predicate rejects it. -/
theorem goodRing_out {m : Mat} {n cy : Nat}
    (hlen : m.length = n) (hodd : n = 2 * cy + 1) :
    goodRing m (cy + 1) = false := by
  unfold goodRing
  have e : m.length / 2 = cy := by omega
  simp only [e]
  rw [Bool.eq_false_iff]
  intro hall
  have hmem : ((cy : Int) - ((cy + 1 : Nat) : Int), (cy : Int) - ((cy + 1 : Nat) : Int))
      ∈ ringPositions (cy : Int) (cy : Int) (cy + 1) := by
    unfold ringPositions
    refine List.mem_append.2 (Or.inl (List.mem_append.2 (Or.inl (List.mem_append.2 (Or.inl ?_)))))
    exact List.mem_map.2 ⟨(cy : Int) - ((cy + 1 : Nat) : Int),
      mem_intRange.2 ⟨le_refl _, by omega⟩, rfl⟩
  have := List.all_eq_true.1 hall _ hmem
  rw [cellIs_iff] at this
  rw [matGet_neg_row (by omega)] at this
  exact Option.noConfusion this

/-- For an in-bounds layer (`j ≤ cy`) the loop body check agrees with the
spec-side ring predicate and can never raise `IndexError`. -/
theorem ringCheck_inbounds {m : Mat} {n cy : Nat}
    (hlen : m.length = n) (hsq : ∀ row ∈ m, row.length = n)
    (hodd : n = 2 * cy + 1) {j : Nat} (hj : j ≤ cy) :
    (ringCheck m (cy : Int) (cy : Int) j = .okR ↔ goodRing m j = true)
      ∧ ringCheck m (cy : Int) (cy : Int) j ≠ .idxR := by
  have colL : 0 ≤ (cy : Int) - (j : Int) ∧ (cy : Int) - (j : Int) < (n : Int) := by omega
  have colR : 0 ≤ (cy : Int) + (j : Int) ∧ (cy : Int) + (j : Int) < (n : Int) := by omega
  have hb : ∀ y : Int, y ∈ intRange ((cy : Int) - (j : Int)) ((cy : Int) + (j : Int) + 1) →
      0 ≤ y ∧ y < (n : Int) := by
    intro y hy
    have := mem_intRange.1 hy
    omega
  have hsome : ∀ (r c : Int), 0 ≤ r → r < (n : Int) → 0 ≤ c → c < (n : Int) →
      npGet m r c = matGet m r c ∧ (npGet m r c).isSome := by
    intro r c h1 h2 h3 h4
    have heq := npGet_nonneg hlen hsq h1 h2 h3 h4
    obtain ⟨v, hv⟩ := matGet_inbounds hlen hsq h1 h2 h3 h4
    exact ⟨heq, by rw [heq, hv]; rfl⟩
  have s1 : ∀ y ∈ intRange ((cy : Int) - (j : Int)) ((cy : Int) + (j : Int) + 1),
      (cellPair m ((j + 1) % 2) (y, (cy : Int) - (j : Int)) (y, (cy : Int) + (j : Int)) = .okR ↔
        (matGet m y ((cy : Int) - (j : Int)) = some ((j + 1) % 2) ∧
          matGet m y ((cy : Int) + (j : Int)) = some ((j + 1) % 2))) ∧
      cellPair m ((j + 1) % 2) (y, (cy : Int) - (j : Int)) (y, (cy : Int) + (j : Int)) ≠ .idxR := by
    intro y hy
    have hyb := hb y hy
    constructor
    · rw [cellPair_eq_ok]
      rw [(hsome y _ hyb.1 hyb.2 colL.1 colL.2).1, (hsome y _ hyb.1 hyb.2 colR.1 colR.2).1]
    · exact cellPair_ne_idx (hsome y _ hyb.1 hyb.2 colL.1 colL.2).2
        (hsome y _ hyb.1 hyb.2 colR.1 colR.2).2
  have s2 : ∀ x ∈ intRange ((cy : Int) - (j : Int)) ((cy : Int) + (j : Int) + 1),
      (cellPair m ((j + 1) % 2) ((cy : Int) - (j : Int), x) ((cy : Int) + (j : Int), x) = .okR ↔
        (matGet m ((cy : Int) - (j : Int)) x = some ((j + 1) % 2) ∧
          matGet m ((cy : Int) + (j : Int)) x = some ((j + 1) % 2))) ∧
      cellPair m ((j + 1) % 2) ((cy : Int) - (j : Int), x) ((cy : Int) + (j : Int), x) ≠ .idxR := by
    intro x hx
    have hxb := hb x hx
    constructor
    · rw [cellPair_eq_ok]
      rw [(hsome _ x colL.1 colL.2 hxb.1 hxb.2).1, (hsome _ x colR.1 colR.2 hxb.1 hxb.2).1]
    · exact cellPair_ne_idx (hsome _ x colL.1 colL.2 hxb.1 hxb.2).2
        (hsome _ x colR.1 colR.2 hxb.1 hxb.2).2
  have hg : goodRing m j = true ↔
      ((∀ y ∈ intRange ((cy : Int) - (j : Int)) ((cy : Int) + (j : Int) + 1),
          matGet m y ((cy : Int) - (j : Int)) = some ((j + 1) % 2)) ∧
        (∀ y ∈ intRange ((cy : Int) - (j : Int)) ((cy : Int) + (j : Int) + 1),
          matGet m y ((cy : Int) + (j : Int)) = some ((j + 1) % 2)) ∧
        (∀ x ∈ intRange ((cy : Int) - (j : Int)) ((cy : Int) + (j : Int) + 1),
          matGet m ((cy : Int) - (j : Int)) x = some ((j + 1) % 2)) ∧
        (∀ x ∈ intRange ((cy : Int) - (j : Int)) ((cy : Int) + (j : Int) + 1),
          matGet m ((cy : Int) + (j : Int)) x = some ((j + 1) % 2))) := by
    unfold goodRing ringPositions
    have e : m.length / 2 = cy := by omega
    simp only [e, List.all_append, Bool.and_eq_true, List.all_eq_true, List.mem_map,
      forall_exists_index, and_imp]
    constructor
    · rintro ⟨⟨⟨h1, h2⟩, h3⟩, h4⟩
      refine ⟨?_, ?_, ?_, ?_⟩
      · intro y hy; have := h1 _ y hy rfl; rwa [cellIs_iff] at this
      · intro y hy; have := h2 _ y hy rfl; rwa [cellIs_iff] at this
      · intro x hx; have := h3 _ x hx rfl; rwa [cellIs_iff] at this
      · intro x hx; have := h4 _ x hx rfl; rwa [cellIs_iff] at this
    · rintro ⟨h1, h2, h3, h4⟩
      refine ⟨⟨⟨?_, ?_⟩, ?_⟩, ?_⟩
      · rintro p y hy rfl; rw [cellIs_iff]; exact h1 y hy
      · rintro p y hy rfl; rw [cellIs_iff]; exact h2 y hy
      · rintro p x hx rfl; rw [cellIs_iff]; exact h3 x hx
      · rintro p x hx rfl; rw [cellIs_iff]; exact h4 x hx
  unfold ringCheck
  constructor
  · rw [ringSeq_eq_ok, scanRing_eq_ok, scanRing_eq_ok, hg]
    constructor
    · rintro ⟨h1, h2⟩
      refine ⟨fun y hy => ((s1 y hy).1.1 (h1 y hy)).1, fun y hy => ((s1 y hy).1.1 (h1 y hy)).2,
        fun x hx => ((s2 x hx).1.1 (h2 x hx)).1, fun x hx => ((s2 x hx).1.1 (h2 x hx)).2⟩
    · rintro ⟨h1, h2, h3, h4⟩
      exact ⟨fun y hy => (s1 y hy).1.2 ⟨h1 y hy, h2 y hy⟩,
        fun x hx => (s2 x hx).1.2 ⟨h3 x hx, h4 x hx⟩⟩
  · exact ringSeq_ne_idx
      (scanRing_ne_idx _ (fun y hy => (s1 y hy).2))
      (scanRing_ne_idx _ (fun x hx => (s2 x hx).2))

/-- A fully valid outermost ring pins the bottom-right corner colour. -/
theorem goodRing_corner {m : Mat} {n cy : Nat}
    (hlen : m.length = n) (hodd : n = 2 * cy + 1)
    (hg : goodRing m cy = true) :
    matGet m ((cy : Int) + (cy : Int)) ((cy : Int) + (cy : Int)) = some ((cy + 1) % 2) := by
  unfold goodRing at hg
  have e : m.length / 2 = cy := by omega
  rw [e] at hg
  have hmem : ((cy : Int) + (cy : Int), (cy : Int) + (cy : Int))
      ∈ ringPositions (cy : Int) (cy : Int) cy := by
    unfold ringPositions
    refine List.mem_append.2 (Or.inl (List.mem_append.2 (Or.inl (List.mem_append.2 (Or.inr ?_)))))
    exact List.mem_map.2 ⟨(cy : Int) + (cy : Int), mem_intRange.2 ⟨by omega, by omega⟩, rfl⟩
  have := List.all_eq_true.1 hg _ hmem
  rwa [cellIs_iff] at this

/-- At `layer = cy + 1` the first access of the ring check wraps to the
opposite corner of the matrix, whose colour never matches, so the loop stops
there (`cy ≥ 1`). -/
theorem scanRing_cons_stop (f : Int → RingRes) {y : Int} {ys : List Int}
    (h : f y = .stopR) : scanRing f (y :: ys) = .stopR := by
  rw [scanRing, h]

theorem ringSeq_stop {r2 : RingRes} : ringSeq .stopR r2 = .stopR := rfl

theorem ringCheck_corner {m : Mat} {n cy : Nat}
    (hlen : m.length = n) (hsq : ∀ row ∈ m, row.length = n)
    (hodd : n = 2 * cy + 1)
    (hcorner : matGet m ((cy : Int) + (cy : Int)) ((cy : Int) + (cy : Int))
      = some ((cy + 1) % 2)) :
    ringCheck m (cy : Int) (cy : Int) (cy + 1) = .stopR := by
  have hget : npGet m ((cy : Int) - ((cy + 1 : Nat) : Int)) ((cy : Int) - ((cy + 1 : Nat) : Int))
      = some ((cy + 1) % 2) := by
    rw [npGet_negneg hlen hsq (by omega) (by omega) (by omega) (by omega)]
    rw [show (cy : Int) - ((cy + 1 : Nat) : Int) + (n : Int) = (cy : Int) + (cy : Int) by omega]
    exact hcorner
  have hne : ¬ ((cy + 1) % 2 = (cy + 1 + 1) % 2) := by omega
  have hcell : cellPair m ((cy + 1 + 1) % 2)
      ((cy : Int) - ((cy + 1 : Nat) : Int), (cy : Int) - ((cy + 1 : Nat) : Int))
      ((cy : Int) - ((cy + 1 : Nat) : Int), (cy : Int) + ((cy + 1 : Nat) : Int)) = .stopR := by
    simp only [cellPair]
    rw [hget]
    simp only [ne_eq, hne, not_false_eq_true, if_pos]
  have hstep : ringCheck m (cy : Int) (cy : Int) (cy + 1) =
      ringSeq
        (scanRing (fun y => cellPair m ((cy + 1 + 1) % 2)
            (y, (cy : Int) - ((cy + 1 : Nat) : Int)) (y, (cy : Int) + ((cy + 1 : Nat) : Int)))
          (intRange ((cy : Int) - ((cy + 1 : Nat) : Int)) ((cy : Int) + ((cy + 1 : Nat) : Int) + 1)))
        (scanRing (fun x => cellPair m ((cy + 1 + 1) % 2)
            ((cy : Int) - ((cy + 1 : Nat) : Int), x) ((cy : Int) + ((cy + 1 : Nat) : Int), x))
          (intRange ((cy : Int) - ((cy + 1 : Nat) : Int)) ((cy : Int) + ((cy + 1 : Nat) : Int) + 1))) := rfl
  have hscan : scanRing (fun y => cellPair m ((cy + 1 + 1) % 2)
      (y, (cy : Int) - ((cy + 1 : Nat) : Int)) (y, (cy : Int) + ((cy + 1 : Nat) : Int)))
      (intRange ((cy : Int) - ((cy + 1 : Nat) : Int)) ((cy : Int) + ((cy + 1 : Nat) : Int) + 1))
      = .stopR := by
    rw [intRange_cons (by omega)]
    exact scanRing_cons_stop (fun y => cellPair m ((cy + 1 + 1) % 2)
      (y, (cy : Int) - ((cy + 1 : Nat) : Int)) (y, (cy : Int) + ((cy + 1 : Nat) : Int))) hcell
  rw [hstep, hscan, ringSeq_stop]

/-- Run of the ring-expansion loop: with `ℓ` leading valid rings (and either
`ℓ = cy` or ring `ℓ + 1` invalid), the loop from any layer `≤ ℓ + 1` with
enough fuel stops with final layer `ℓ`. -/
theorem bullLoop_run {m : Mat} {n cy ℓ : Nat}
    (hlen : m.length = n) (hsq : ∀ row ∈ m, row.length = n)
    (hodd : n = 2 * cy + 1) (hcy : 1 ≤ cy) (hl : ℓ ≤ cy)
    (hgood : ∀ j, 1 ≤ j → j ≤ ℓ → goodRing m j = true)
    (hbad : ℓ = cy ∨ goodRing m (ℓ + 1) = false) :
    ∀ fuel layer, 1 ≤ layer → layer ≤ ℓ + 1 → ℓ + 2 - layer ≤ fuel →
      bullLoop m (cy : Int) (cy : Int) fuel layer = .ok ℓ := by
  intro fuel
  induction fuel with
  | zero => intro layer h1 h2 h3; omega
  | succ fuel ih =>
      intro layer h1 h2 h3
      rw [bullLoop]
      by_cases hcase : layer ≤ ℓ
      · have hok : ringCheck m (cy : Int) (cy : Int) layer = .okR :=
          (ringCheck_inbounds hlen hsq hodd (by omega)).1.2 (hgood layer h1 hcase)
        rw [hok]
        exact ih (layer + 1) (by omega) (by omega) (by omega)
      · have hlayer : layer = ℓ + 1 := by omega
        subst hlayer
        by_cases hlc : ℓ = cy
        · subst hlc
          have hg := hgood ℓ (by omega) (le_refl ℓ)
          have hstop := ringCheck_corner hlen hsq hodd (goodRing_corner hlen hodd hg)
          rw [hstop]
          simp
        · have hbad2 : goodRing m (ℓ + 1) = false := hbad.resolve_left hlc
          have hio := ringCheck_inbounds hlen hsq hodd (show ℓ + 1 ≤ cy by omega)
          cases hr : ringCheck m (cy : Int) (cy : Int) (ℓ + 1) with
          | okR =>
              rw [hio.1.1 hr] at hbad2
              exact absurd hbad2 (by simp)
          | stopR => simp
          | idxR => exact absurd hr hio.2

/-- Claim C3, counterexample: the 1x1 odd square matrix `[[0]]` is accepted
by the constructor, but `_detect_bounds` escapes with an uncaught
`IndexError` (at layer 1 the wrapped read of `matrix[-1, -1]` matches the
ring colour, and the subsequent read of `matrix[-1, 1]` is out of range),
so it neither returns bounds nor raises `BullseyeDetectionError`. -/
theorem detect_bounds_index_escape : bullseyeDetect [[0]] = .indexErr := by decide

/-- Claim C3 (amended, requires side length `≥ 3`): for every odd square
matrix of side `n = 2*cy + 1 ≥ 3` with exactly `ℓ` leading valid rings
(ring `j` valid when every cell of the Chebyshev-radius-`j` square around
the centre lies in the matrix and equals `(j+1) % 2`), the detector returns
bounds `(cy-ℓ, cy-ℓ, cy+ℓ, cy+ℓ)` and layer value `ℓ - 2` when `ℓ ≥ 1`,
and raises `BullseyeDetectionError` when `ℓ = 0`.  (For `n = 1` an
`IndexError` can escape instead, see the counterexample.) -/
theorem detect_bounds_characterization (m : Mat) (n cy ℓ : Nat)
    (hlen : m.length = n) (hsq : ∀ row ∈ m, row.length = n)
    (hodd : n = 2 * cy + 1) (hcy : 1 ≤ cy)
    (hgood : ∀ j, 1 ≤ j → j ≤ ℓ → goodRing m j = true)
    (hbad : goodRing m (ℓ + 1) = false) :
    bullseyeDetect m =
      if 1 ≤ ℓ then
        .ok ((cy : Int) - ℓ, (cy : Int) - ℓ, (cy : Int) + ℓ, (cy : Int) + ℓ) ((ℓ : Int) - 2)
      else .bullseyeErr := by
  have hlc : ℓ ≤ cy := by
    by_contra hgt
    have h1 := hgood (cy + 1) (by omega) (by omega)
    have h2 := goodRing_out hlen hodd
    rw [h1] at h2
    exact absurd h2 (by simp)
  have hall : (m.all fun row => row.length == m.length) = true := by
    rw [List.all_eq_true]
    intro row hrow
    simp [hsq row hrow, hlen]
  have hloop := bullLoop_run hlen hsq hodd hcy hlc hgood (Or.inr hbad)
    (cy + 2) 1 (by omega) (by omega) (by omega)
  have e : m.length / 2 = cy := by omega
  have hm : m.length % 2 = 1 := by omega
  have hodd2 : (m.length % 2 == 0) = false := by rw [hm]; rfl
  unfold bullseyeDetect
  simp only [hall, Bool.not_true, Bool.false_eq_true, if_false, hodd2, e, hloop]
  by_cases h1 : 1 ≤ ℓ
  · rw [if_neg (by omega), if_pos h1]
  · rw [if_pos (by omega), if_neg h1]

/-- Claim C3, witness for the amended theorem: a 3x3 matrix with one valid
dark ring; the detector returns bounds `(0,0,2,2)` and layer value `-1`. -/
theorem detect_bounds_characterization_witness :
    bullseyeDetect [[0, 0, 0], [0, 1, 0], [0, 0, 0]] = .ok (0, 0, 2, 2) (-1) := by
  have h := detect_bounds_characterization [[0, 0, 0], [0, 1, 0], [0, 0, 0]] 3 1 1
    rfl (by decide) (by omega) (by omega)
    (fun j h1 h2 => by
      have : j = 1 := by omega
      subst this
      decide)
    (by decide)
  simpa using h

/-- Claim C9: there is an odd square 0/1 matrix on which bullseye detection
neither returns bounds nor raises `BullseyeDetectionError`, but escapes with
an out-of-bounds indexing error. -/
theorem detect_bounds_index_error_exists :
    ∃ m : Mat, m.length % 2 = 1 ∧ (∀ row ∈ m, row.length = m.length) ∧
      (∀ row ∈ m, ∀ v ∈ row, v ≤ 1) ∧ bullseyeDetect m = .indexErr :=
  ⟨[[0]], by decide⟩

/-! ### Claim C2: reference-grid cells and the data spiral -/

/-- Claim C2, counterexample: on the standard 12-layer full-symbol geometry
(side 67), column 1 is a reference-grid column (centre 33, `1 - 33 ≡ 0`
mod 16), yet the spiral emits cell `(0, 1)` — it is the second cell of the
very first domino, whose guard only tests cell `(0, 0)`. -/
theorem read_bits_emits_reference_cell :
    is_reference 67 0 1 = true ∧
      ((0 : Int), (1 : Int)) ∈ (readBitsCells 67 12 .full).flatten := by
  constructor
  · decide
  · decide

set_option maxRecDepth 100000 in
set_option maxHeartbeats 4000000 in
/-- Claim C2 (amended): for the standard full-symbol geometries with at most
11 layers (side `N = 15 + 4L + 2⌊(2L+6)/15⌋`, a single reference grid line
per half-axis), no cell emitted by the spiral lies on the reference grid;
from 12 layers on (two grid lines per half-axis) the outermost dominoes
straddle a grid line and reference cells are emitted (see the
counterexample). -/
theorem read_bits_reference_grid_standard :
    noRefLeak 19 1 = true ∧ noRefLeak 23 2 = true ∧ noRefLeak 27 3 = true ∧
      noRefLeak 31 4 = true ∧ noRefLeak 37 5 = true ∧ noRefLeak 41 6 = true ∧
      noRefLeak 45 7 = true ∧ noRefLeak 49 8 = true ∧ noRefLeak 53 9 = true ∧
      noRefLeak 57 10 = true ∧ noRefLeak 61 11 = true := by
  refine ⟨by decide, by decide, by decide, by decide, by decide, by decide,
    by decide, by decide, by decide, by decide, by decide⟩

/-! ### Claims C4 and C10: mode fields -/

theorem take_bits_le {bits : List Nat} {k : Nat} (hb : ∀ b ∈ bits, b ≤ 1) :
    bitsToNat (bits.take k) < 2 ^ k := by
  have h1 : bitsToNat (bits.take k) < 2 ^ (bits.take k).length :=
    bitsToNat_lt _ (fun b hmem => hb b (List.mem_of_mem_take hmem))
  have h2 : (bits.take k).length ≤ k := by
    simp [List.length_take]
  exact lt_of_lt_of_le h1 (Nat.pow_le_pow_right (by omega) h2)

theorem drop_take_bits_le {bits : List Nat} {d k : Nat} (hb : ∀ b ∈ bits, b ≤ 1) :
    bitsToNat ((bits.drop d).take k) < 2 ^ k :=
  take_bits_le (fun b hmem => hb b (List.mem_of_mem_drop hmem))

/-- Claim C4: on 0/1 mode bit sequences of sufficient length, field
extraction returns `layers = value(bits[0..2)) + 1`,
`data_words = value(bits[2..8)) + 1`, `ecc_bits = bits[8..)` for COMPACT and
`layers = value(bits[0..5)) + 1`, `data_words = value(bits[5..16)) + 1`,
`ecc_bits = bits[16..)` for FULL, values read MSB-first (`msbVal`); the
`ModeFieldError` branch for out-of-range layers cannot fire on such inputs
(see the claim C10 theorem). -/
theorem extract_fields_spec (bits : List Nat) (t : AztecType)
    (hb : ∀ b ∈ bits, b ≤ 1) :
    (t = .compact → 28 ≤ bits.length →
      extractFields bits t
        = .ok (msbVal (bits.take 2) + 1, msbVal ((bits.drop 2).take 6) + 1, bits.drop 8))
    ∧ (t = .full → 40 ≤ bits.length →
      extractFields bits t
        = .ok (msbVal (bits.take 5) + 1, msbVal ((bits.drop 5).take 11) + 1, bits.drop 16)) := by
  constructor
  · rintro rfl hlen
    simp only [extractFields]
    rw [if_neg (by omega)]
    have hlt : bitsToNat (bits.take 2) < 2 ^ 2 := take_bits_le hb
    rw [if_pos (show 1 ≤ bitsToNat (bits.take 2) + 1 ∧ bitsToNat (bits.take 2) + 1 ≤ 32
      by omega)]
    rw [bitsToNat_eq_msbVal, bitsToNat_eq_msbVal]
  · rintro rfl hlen
    simp only [extractFields]
    rw [if_neg (by omega)]
    have hlt : bitsToNat (bits.take 5) < 2 ^ 5 := take_bits_le hb
    rw [if_pos (show 1 ≤ bitsToNat (bits.take 5) + 1 ∧ bitsToNat (bits.take 5) + 1 ≤ 32
      by omega)]
    rw [bitsToNat_eq_msbVal, bitsToNat_eq_msbVal]

/-- Claim C4, witness: an all-zero 28-bit compact mode message parses to
`layers = 1`, `data_words = 1` and 20 ecc bits. -/
theorem extract_fields_spec_witness :
    extractFields (List.replicate 28 0) .compact
      = .ok (msbVal ((List.replicate 28 0).take 2) + 1,
          msbVal (((List.replicate 28 0).drop 2).take 6) + 1,
          (List.replicate 28 0).drop 8) :=
  (extract_fields_spec (List.replicate 28 0) .compact (by decide)).1 rfl (by decide)

/-- Claim C10: for 0/1 mode bit sequences the extracted `layers` value is
always in `1..32` (2 bits plus one for COMPACT, 5 bits plus one for FULL),
so the `ModeFieldError` branch for layers out of range is unreachable. -/
theorem extract_fields_layers_range (bits : List Nat) (t : AztecType)
    (hb : ∀ b ∈ bits, b ≤ 1) :
    (∀ out, extractFields bits t = .ok out → 1 ≤ out.1 ∧ out.1 ≤ 32)
      ∧ extractFields bits t ≠ .error .layersRange := by
  cases t
  case compact =>
    simp only [extractFields]
    by_cases hlen : bits.length < 28
    · rw [if_pos hlen]
      exact ⟨(fun out h => nomatch h), (fun h => nomatch h)⟩
    · rw [if_neg hlen]
      have hlt : bitsToNat (bits.take 2) < 2 ^ 2 := take_bits_le hb
      rw [if_pos (show 1 ≤ bitsToNat (bits.take 2) + 1 ∧ bitsToNat (bits.take 2) + 1 ≤ 32
        by omega)]
      constructor
      · intro out h
        cases h
        exact ⟨Nat.le_add_left 1 _, show bitsToNat (bits.take 2) + 1 ≤ 32 by omega⟩
      · intro h
        cases h
  case full =>
    simp only [extractFields]
    by_cases hlen : bits.length < 40
    · rw [if_pos hlen]
      exact ⟨(fun out h => nomatch h), (fun h => nomatch h)⟩
    · rw [if_neg hlen]
      have hlt : bitsToNat (bits.take 5) < 2 ^ 5 := take_bits_le hb
      rw [if_pos (show 1 ≤ bitsToNat (bits.take 5) + 1 ∧ bitsToNat (bits.take 5) + 1 ≤ 32
        by omega)]
      constructor
      · intro out h
        cases h
        exact ⟨Nat.le_add_left 1 _, show bitsToNat (bits.take 5) + 1 ≤ 32 by omega⟩
      · intro h
        cases h

/-- Claim C10, witness: the layers-range error branch is not taken on an
all-one 40-bit full mode message (which encodes the maximal `layers = 32`). -/
theorem extract_fields_layers_range_witness :
    extractFields (List.replicate 40 1) .full ≠ .error .layersRange :=
  (extract_fields_layers_range (List.replicate 40 1) .full (by decide)).2

/-! ### Claim C5: Reed-Solomon parameter plumbing -/

theorem msbExpand_length (syms : List Nat) (k : Nat) :
    (msbExpand syms k).length = syms.length * k := by
  induction syms with
  | nil => simp [msbExpand]
  | cons s ss ih =>
      simp only [msbExpand, List.flatMap_cons, List.length_append, List.length_map,
        List.length_range, List.length_cons]
      rw [show (ss.flatMap fun sym => (List.range k).map fun j => sym >>> (k - 1 - j) &&& 1)
          = msbExpand ss k from rfl, ih]
      ring

theorem symbolsOf_length (bits : List Nat) (k : Nat) :
    (symbolsOf bits k).length = bits.length / k := by
  simp [symbolsOf]

/-- Claim C5: for every layer count in `1..32`, the data corrector uses
code-word size `k` = 6 / 8 / 10 / 12 by the claimed thresholds, primitive
polynomial 0x43 / 0x12d / 0x409 / 0x1069, and calls the Reed-Solomon decoder
with `nsize = 2^k - 1`, `fcr = 1`, `generator = 2`,
`nsym = ⌊|bits|/k⌋ - data_words`; the output is the full codeword of the decoder
re-expanded MSB-first, and (whenever the decoder keeps the symbol count) its
length is `⌊|bits|/k⌋ * k` bits. -/
theorem correct_params_spec (rs : RSParams → List Nat → List Nat)
    (layers dw : Nat) (bits : List Nat) (_h1 : 1 ≤ layers) (_h2 : layers ≤ 32)
    (hrs : ∀ p s, (rs p s).length = s.length) :
    correctWith rs layers dw bits
      = msbExpand (rs
          ⟨((bits.length / claimCw layers : Nat) : Int) - (dw : Int),
            2 ^ claimCw layers - 1, 1, 2, claimCw layers, claimPrim (claimCw layers)⟩
          (symbolsOf bits (claimCw layers))) (claimCw layers)
      ∧ (correctWith rs layers dw bits).length
          = (bits.length / claimCw layers) * claimCw layers := by
  have hk : claimCw layers = cwSize layers := rfl
  have hprim : claimPrim (claimCw layers) = PRIM_POLY (cwSize layers) := by
    unfold claimPrim claimCw cwSize PRIM_POLY
    split_ifs <;> first | rfl | omega
  have hsize : 2 ^ claimCw layers - 1 = (1 <<< cwSize layers) - 1 := by
    rw [hk, Nat.shiftLeft_eq, one_mul]
  constructor
  · simp only [correctWith]
    rw [hprim, hsize, hk]
  · simp only [correctWith]
    rw [msbExpand_length, hrs, symbolsOf_length, hk]

/-- Claim C5, witness: with the identity in place of the external decoder,
a 6-bit input at one layer re-expands to `6/6 * 6 = 6` bits. -/
theorem correct_params_spec_witness :
    (correctWith (fun _ s => s) 1 0 [1, 0, 1, 1, 0, 0]).length
      = (([1, 0, 1, 1, 0, 0] : List Nat).length / claimCw 1) * claimCw 1 :=
  (correct_params_spec (fun _ s => s) 1 0 [1, 0, 1, 1, 0, 0]
    (by decide) (by decide) (fun p s => rfl)).2

/-! ### Claim C8: orientation idempotence on canonical matrices -/

/-- Claim C8: when the four 3-cell corner patterns already equal the
canonical tuple (`[1,1,1]`, `[0,1,1]`, `[1,0,0]`, `[0,0,0]`),
`rotate_if_needed` returns the matrix unchanged. -/
theorem rotate_if_needed_id (m : Mat) (b : Int × Int × Int × Int)
    (h : readPatterns m b = some [[1, 1, 1], [0, 1, 1], [1, 0, 0], [0, 0, 0]]) :
    rotateIfNeeded m b = some m := by
  have hn : needRotation m b = some false := by
    rw [needRotation, h]
    rfl
  unfold rotateIfNeeded
  rw [show (4 : Nat) = 3 + 1 from rfl, rotateLoop, hn]

/-- Claim C8, witness: a 5x5 matrix whose corner patterns around bounds
`(1,1,3,3)` are canonical is returned unchanged. -/
theorem rotate_if_needed_id_witness :
    rotateIfNeeded [[1, 1, 0, 0, 1], [1, 0, 0, 0, 1], [0, 0, 0, 0, 0],
        [0, 0, 0, 0, 1], [0, 0, 0, 0, 0]] (1, 1, 3, 3)
      = some [[1, 1, 0, 0, 1], [1, 0, 0, 0, 1], [0, 0, 0, 0, 0],
          [0, 0, 0, 0, 1], [0, 0, 0, 0, 0]] :=
  rotate_if_needed_id _ _ (by decide)

/-! ### Claims C6 and C7: the FLG and B/S branches of the text machine -/

theorem shiftRevert_i (st : DecState) : (shiftRevert st).i = st.i := by
  unfold shiftRevert
  split <;> rfl

theorem shiftRevert_chars (st : DecState) : (shiftRevert st).chars = st.chars := by
  unfold shiftRevert
  split <;> rfl

/-- One loop iteration whose (post-revert) symbol is the 5-bit value 0 in
PUNCT mode resolves to the FLG branch. -/
theorem decodeLoop_flg_step (bits : List Nat) (cw dw fuel : Nat) (st : DecState)
    (hguard : st.i / cw < dw)
    (hmode : (shiftRevert st).currentMode = .punct)
    (hsym : sliceBits bits st.i 5 = [0, 0, 0, 0, 0]) :
    decodeLoop bits cw dw (fuel + 1) st =
      match bitsToNatE (sliceBits bits (st.i + 5) 3) with
      | .error e => .error e
      | .ok n =>
        if n == 0 then
          decodeLoop bits cw dw fuel (withIC (shiftRevert st) (st.i + 5 + 3) "\x1D")
        else if n ≤ 6 then
          match flgDigits bits n (st.i + 5 + 3) with
          | .error e => .error e
          | .ok (digits, i2) =>
            decodeLoop bits cw dw fuel
              (withIC (shiftRevert st) i2 ("[ECI:" ++ zfill digits 6 ++ "]"))
        else .error .flgReserved := by
  conv_lhs => rw [decodeLoop]
  rw [if_pos hguard]
  simp only [hmode, shiftRevert_i, hsym,
    show (AztecTableType.punct == AztecTableType.digit) = false from rfl,
    Bool.false_eq_true, if_false,
    show bitsToNatE [0, 0, 0, 0, 0] = .ok 0 from rfl,
    show getChar 0 AztecTableType.punct = .ok "FLG(n)" from rfl,
    show ("FLG(n)" == "B/S") = false from rfl,
    show pyEndsWith "FLG(n)" "/S" = false from rfl,
    show pyEndsWith "FLG(n)" "/L" = false from rfl,
    show pyStartsWith "FLG(n)" "FLG" = true from rfl,
    if_true, withIC, shiftRevert_chars]

theorem getChar_digit {d : Nat} (h2 : 2 ≤ d) (h11 : d ≤ 11) :
    getChar d .digit = .ok (String.singleton (Char.ofNat (48 + (d - 2)))) := by
  interval_cases d <;> rfl

theorem flgDigits_run (bits : List Nat) :
    ∀ (ds : List Nat) (i0 : Nat),
      (∀ j, j < ds.length → (sliceBits bits (i0 + 4 * j) 4).length = 4 ∧
        bitsToNat (sliceBits bits (i0 + 4 * j) 4) = ds.getD j 0) →
      (∀ d ∈ ds, 2 ≤ d ∧ d ≤ 11) →
      flgDigits bits ds.length i0 = .ok (digitsStr ds, i0 + 4 * ds.length) := by
  intro ds
  induction ds with
  | nil =>
      intro i0 _ _
      simp [flgDigits, digitsStr]
  | cons d ds ih =>
      intro i0 hchunk hrange
      have h0 := hchunk 0 (by simp)
      rw [show i0 + 4 * 0 = i0 by ring] at h0
      have hlen0 : (sliceBits bits i0 4).length = 4 := h0.1
      have hval0 : bitsToNat (sliceBits bits i0 4) = d := by simpa using h0.2
      have hne : (sliceBits bits i0 4).isEmpty = false := by
        cases hsl : sliceBits bits i0 4 with
        | nil => rw [hsl] at hlen0; simp at hlen0
        | cons a l => rfl
      have hb : bitsToNatE (sliceBits bits i0 4) = .ok d := by
        unfold bitsToNatE
        rw [hne, hval0]
        rfl
      have hd := hrange d (by simp)
      have hrec : flgDigits bits ds.length (i0 + 4)
          = .ok (digitsStr ds, i0 + 4 + 4 * ds.length) := by
        rw [ih (i0 + 4) (fun j hj => by
            rw [show i0 + 4 + 4 * j = i0 + 4 * (j + 1) by ring]
            exact hchunk (j + 1) (by simpa using hj))
          (fun x hx => hrange x (by simp [hx]))]
      simp only [List.length_cons, flgDigits, hb, getChar_digit hd.1 hd.2, hrec]
      rw [show digitsStr (d :: ds)
          = String.singleton (Char.ofNat (48 + (d - 2))) ++ digitsStr ds from rfl]
      rw [show i0 + 4 * (ds.length + 1) = i0 + 4 + 4 * ds.length by ring]

/-- Claim C6: in PUNCT mode an FLG token (5-bit symbol 0) followed by three
bits of value 0 appends exactly the single character 0x1D; followed by a
3-bit count `n` in `1..6` it reads `n` 4-bit DIGIT symbols (each a digit
value `2..11` in the DIGIT table), left-pads the digit string with zeros to
width 6 and appends `"[ECI:" ++ id ++ "]"`; followed by `n = 7` it raises an
error (`ValueError("FLG(7) reserved/illegal")`). -/
theorem decode_flg_behavior (bits : List Nat) (cw dw fuel : Nat) (st : DecState)
    (hguard : st.i / cw < dw)
    (hmode : (shiftRevert st).currentMode = .punct)
    (hsym : sliceBits bits st.i 5 = [0, 0, 0, 0, 0]) :
    (sliceBits bits (st.i + 5) 3 = [0, 0, 0] →
      decodeLoop bits cw dw (fuel + 1) st
        = decodeLoop bits cw dw fuel (withIC (shiftRevert st) (st.i + 8) "\x1D"))
    ∧ (∀ (ds : List Nat), 1 ≤ ds.length → ds.length ≤ 6 →
        (sliceBits bits (st.i + 5) 3).length = 3 →
        bitsToNat (sliceBits bits (st.i + 5) 3) = ds.length →
        (∀ j, j < ds.length → (sliceBits bits (st.i + 8 + 4 * j) 4).length = 4 ∧
          bitsToNat (sliceBits bits (st.i + 8 + 4 * j) 4) = ds.getD j 0) →
        (∀ d ∈ ds, 2 ≤ d ∧ d ≤ 11) →
        decodeLoop bits cw dw (fuel + 1) st
          = decodeLoop bits cw dw fuel
              (withIC (shiftRevert st) (st.i + 8 + 4 * ds.length)
                ("[ECI:" ++ zfill (digitsStr ds) 6 ++ "]")))
    ∧ (sliceBits bits (st.i + 5) 3 = [1, 1, 1] →
      decodeLoop bits cw dw (fuel + 1) st = .error .flgReserved) := by
  refine ⟨?_, ?_, ?_⟩
  · intro h3
    rw [decodeLoop_flg_step bits cw dw fuel st hguard hmode hsym, h3]
    rw [show bitsToNatE [0, 0, 0] = .ok 0 from rfl]
    simp only [beq_self_eq_true, if_true]
  · intro ds h1 h6 hlen3 hval hchunk hrange
    rw [decodeLoop_flg_step bits cw dw fuel st hguard hmode hsym]
    have hne3 : (sliceBits bits (st.i + 5) 3).isEmpty = false := by
      cases hsl : sliceBits bits (st.i + 5) 3 with
      | nil => rw [hsl] at hlen3; simp at hlen3
      | cons a l => rfl
    have hb3 : bitsToNatE (sliceBits bits (st.i + 5) 3) = .ok ds.length := by
      unfold bitsToNatE
      rw [hne3, hval]
      rfl
    have hz : (ds.length == 0) = false := by
      simp only [beq_eq_false_iff_ne, ne_eq]
      omega
    have hfd := flgDigits_run bits ds (st.i + 5 + 3)
      (fun j hj => hchunk j hj) hrange
    simp only [hb3, hz, Bool.false_eq_true, if_false, if_pos h6, hfd]
  · intro h3
    rw [decodeLoop_flg_step bits cw dw fuel st hguard hmode hsym, h3]
    rfl

/-- Claim C6, witness: a concrete PUNCT-mode FLG(0) step appends exactly
the single 0x1D character and advances eight bits. -/
theorem decode_flg_behavior_witness :
    decodeLoop [0, 0, 0, 0, 0, 0, 0, 0] 6 2 2 ⟨0, [], .punct, .upper, false, 0⟩
      = decodeLoop [0, 0, 0, 0, 0, 0, 0, 0] 6 2 1
          (withIC (shiftRevert ⟨0, [], .punct, .upper, false, 0⟩) 8 "\x1D") :=
  (decode_flg_behavior [0, 0, 0, 0, 0, 0, 0, 0] 6 2 1 ⟨0, [], .punct, .upper, false, 0⟩
    (by decide) (by decide) (by decide)).1 (by decide)

/-- Claim C7, counterexample: a byte-shift whose 1-byte payload lies
entirely past the end of the stream decodes to an ordinary (empty) string -
no `StreamTerminationError` (nor any other exception) is raised; the
payload is silently truncated. -/
theorem decode_byteshift_truncates :
    decodeLoop [1, 1, 1, 1, 1, 0, 0, 0, 0, 1] 6 1 3 ⟨0, [], .upper, .upper, false, 0⟩
      = .ok "" := rfl

/-- Claim C7 (amended): FLG(7) raises an error, but it is the generic
`ValueError("FLG(7) reserved/illegal")`, not a `StreamTerminationError`
(no such exception exists in the decoding module); and a byte-shift whose
5-bit length field lies past the end of the stream raises nothing at all -
the loop `break`s and the decoded string so far is returned. -/
theorem decode_flg7_and_byteshift (bits : List Nat) (cw dw fuel : Nat) (st : DecState)
    (hguard : st.i / cw < dw) :
    ((shiftRevert st).currentMode = .punct →
      sliceBits bits st.i 5 = [0, 0, 0, 0, 0] →
      sliceBits bits (st.i + 5) 3 = [1, 1, 1] →
      decodeLoop bits cw dw (fuel + 1) st = .error .flgReserved)
    ∧ (((shiftRevert st).currentMode = .upper ∨ (shiftRevert st).currentMode = .lower
          ∨ (shiftRevert st).currentMode = .mixed) →
      sliceBits bits st.i 5 = [1, 1, 1, 1, 1] →
      bits.length ≤ st.i + 5 →
      decodeLoop bits cw dw (fuel + 1) st = .ok (String.join st.chars)) := by
  constructor
  · intro hmode hsym h3
    rw [decodeLoop_flg_step bits cw dw fuel st hguard hmode hsym, h3]
    rfl
  · intro hmode hsym hend
    have hempty : sliceBits bits (st.i + 5) 5 = [] := by
      unfold sliceBits
      rw [List.drop_eq_nil_of_le hend]
      rfl
    conv_lhs => rw [decodeLoop]
    rw [if_pos hguard]
    rcases hmode with h | h | h <;>
      simp only [h, shiftRevert_i, shiftRevert_chars, hsym, hempty,
        show (AztecTableType.upper == AztecTableType.digit) = false from rfl,
        show (AztecTableType.lower == AztecTableType.digit) = false from rfl,
        show (AztecTableType.mixed == AztecTableType.digit) = false from rfl,
        Bool.false_eq_true, if_false,
        show bitsToNatE [1, 1, 1, 1, 1] = .ok 31 from rfl,
        show getChar 31 AztecTableType.upper = .ok "B/S" from rfl,
        show getChar 31 AztecTableType.lower = .ok "B/S" from rfl,
        show getChar 31 AztecTableType.mixed = .ok "B/S" from rfl,
        show ("B/S" == "B/S") = true from rfl, if_true,
        List.isEmpty_nil]

/-- Claim C7, witness: a byte-shift symbol at the very end of the stream
ends decoding with the (empty) string collected so far. -/
theorem decode_flg7_and_byteshift_witness :
    decodeLoop [1, 1, 1, 1, 1] 6 1 1 ⟨0, [], .upper, .upper, false, 0⟩ = .ok "" := by
  have h := (decode_flg7_and_byteshift [1, 1, 1, 1, 1] 6 1 0
    ⟨0, [], .upper, .upper, false, 0⟩ (by decide)).2
    (Or.inl (by decide)) (by decide) (by decide)
  simpa using h
